import Mathlib

/-!
Verification of the vcf_parser pipeline: a shallow embedding of the
serde_json value model together with the decoder (`variant.rs`), the
exploder and outer-join (`utils.rs`), the two filter evaluators
(`utils.rs` and `lib.rs`) and the filter expression grammar
(`parser.rs`), with theorems about their behaviour.

Modelling conventions:
* `serde_json::Value` becomes `JValue`; its `Number` keeps the serde
  split between integer and floating payloads (`JNum.i` / `JNum.f`),
  with `f64` modelled as `Rat` (all numerals appearing in the claims
  are exactly representable, so no rounding is modelled).
* `serde_json::Map` (a `BTreeMap`) becomes an association list kept in
  ascending key order by `JMap.insert`; iteration order of a map built
  by the embedded operations therefore matches `BTreeMap` iteration.
* Rust panics (`unwrap`, indexing, `panic!`) are modelled as `none`
  (or a dedicated error constructor); `Result::Err` values keep their
  own constructor so that errors and panics stay distinct.
-/

namespace VcfSpec

/-- The numeric payload of a `serde_json::Number`: serde distinguishes
integer-backed from float-backed numbers and its `PartialEq` never
identifies the two, while `as_f64` converts both. -/
inductive JNum where
  | i : Int → JNum
  | f : Rat → JNum

/-- `serde_json::Value`: the tree-shaped dynamic value used throughout
the pipeline.  Objects are association lists (see `JMap`). -/
inductive JValue where
  | null
  | bool (b : Bool)
  | num (n : JNum)
  | str (s : String)
  | arr (xs : List JValue)
  | obj (fields : List (String × JValue))

abbrev Row := List (String × JValue)
abbrev Table := List Row

/-- Structural equality of numbers, as serde's derived `PartialEq`:
an integer-backed number is never equal to a float-backed one. -/
def JNum.beq : JNum → JNum → Bool
  | .i a, .i b => a == b
  | .f a, .f b => a == b
  | _, _ => false

/-- `as_f64` on a `serde_json::Number`: both payloads convert. -/
def JNum.toRat : JNum → Rat
  | .i n => mkRat n 1
  | .f q => q

mutual
/-- Structural equality of `serde_json::Value`s (`PartialEq`). -/
def JValue.beq : JValue → JValue → Bool
  | .null, .null => true
  | .bool a, .bool b => a == b
  | .num a, .num b => a.beq b
  | .str a, .str b => a == b
  | .arr a, .arr b => JValue.beqList a b
  | .obj a, .obj b => JValue.beqFields a b
  | _, _ => false

def JValue.beqList : List JValue → List JValue → Bool
  | [], [] => true
  | a :: as', b :: bs' => a.beq b && JValue.beqList as' bs'
  | _, _ => false

def JValue.beqFields : List (String × JValue) → List (String × JValue) → Bool
  | [], [] => true
  | (k, v) :: as', (k', v') :: bs' => k == k' && v.beq v' && JValue.beqFields as' bs'
  | _, _ => false
end

/-- `Value::as_f64`: numbers convert, everything else is `None`. -/
def JValue.asF64 : JValue → Option Rat
  | .num n => some n.toRat
  | _ => none

/-- `Value::as_str`. -/
def JValue.asStr : JValue → Option String
  | .str s => some s
  | _ => none

/-- `Value::is_null`. -/
def JValue.isNull : JValue → Bool
  | .null => true
  | _ => false

namespace JMap

/-- `BTreeMap::get`: first entry with the given key (a map built by
`insert` has at most one). -/
def get (m : Row) (k : String) : Option JValue :=
  match m with
  | [] => none
  | (k', v) :: rest => if k' = k then some v else get rest k

/-- Lexicographic comparison of key characters: for well-formed
UTF-8 this is exactly the byte order `BTreeMap<String, _>` sorts by. -/
def charsLt : List Char → List Char → Bool
  | [], [] => false
  | [], _ :: _ => true
  | _ :: _, [] => false
  | a :: as', b :: bs' =>
    if a < b then true else if b < a then false else charsLt as' bs'

def strLt (a b : String) : Bool :=
  charsLt a.data b.data

/-- `BTreeMap::insert`: replace the existing entry for the key or
insert at the ordered position, keeping keys ascending. -/
def insert (k : String) (v : JValue) : Row → Row
  | [] => [(k, v)]
  | (k', v') :: rest =>
    if strLt k k' then (k, v) :: (k', v') :: rest
    else if k = k' then (k, v) :: rest
    else (k', v') :: insert k v rest

/-- `BTreeMap::remove` (entries for the key are dropped). -/
def remove (k : String) : Row → Row
  | [] => []
  | (k', v) :: rest => if k' = k then remove k rest else (k', v) :: remove k rest

@[simp] theorem get_nil (k : String) : get [] k = none := rfl

theorem get_insert (m : Row) (k k' : String) (v : JValue) :
    get (insert k v m) k' = if k' = k then some v else get m k' := by
  induction m with
  | nil =>
    simp only [insert, get]
    rcases eq_or_ne k k' with h | h
    · rw [if_pos h, if_pos h.symm]
    · rw [if_neg h, if_neg h.symm]
  | cons kv rest ih =>
    obtain ⟨k₀, v₀⟩ := kv
    simp only [insert]
    by_cases hlt : strLt k k₀ = true
    · rw [if_pos hlt]
      simp only [get]
      rcases eq_or_ne k k' with h | h
      · rw [if_pos h, if_pos h.symm]
      · rw [if_neg h, if_neg h.symm]
    · rw [if_neg hlt]
      by_cases heq : k = k₀
      · rw [if_pos heq]
        simp only [get]
        rcases eq_or_ne k k' with h | h
        · rw [if_pos h, if_pos h.symm]
        · rw [if_neg h, if_neg h.symm, if_neg (fun hh => h (heq.trans hh))]
      · rw [if_neg heq]
        simp only [get]
        rcases eq_or_ne k₀ k' with h4 | h4
        · have hk : k' ≠ k := fun hh => heq ((h4.trans hh).symm)
          rw [if_pos h4, if_neg hk, if_pos h4]
        · rw [if_neg h4, ih, if_neg h4]

@[simp] theorem get_insert_self (m : Row) (k : String) (v : JValue) :
    get (insert k v m) k = some v := by
  simp [get_insert]

theorem get_insert_ne (m : Row) (k k' : String) (v : JValue) (h : k' ≠ k) :
    get (insert k v m) k' = get m k' := by
  simp [get_insert, h]

theorem get_remove (m : Row) (k k' : String) :
    get (remove k m) k' = if k' = k then none else get m k' := by
  induction m with
  | nil =>
    simp only [remove, get]
    rw [ite_self]
  | cons kv rest ih =>
    obtain ⟨k₀, v₀⟩ := kv
    by_cases h0 : k₀ = k
    · simp only [remove, if_pos h0, ih, get]
      rcases eq_or_ne k' k with h | h
      · rw [if_pos h, if_pos h]
      · rw [if_neg h, if_neg h, if_neg (fun hh => h (hh.symm.trans h0))]
    · simp only [remove, if_neg h0, get]
      rcases eq_or_ne k₀ k' with h4 | h4
      · rw [if_pos h4, if_neg (fun hh => h0 (h4.trans hh)), if_pos h4]
      · rw [if_neg h4, ih, if_neg h4]

end JMap

/-! ## Filter predicate evaluators

`filterRecordU` embeds `utils::filter_record`, `filterRecordL` embeds
the older `filter_record` in `lib.rs`.  Both return `Option Bool`:
`none` marks a Rust panic (a failed `unwrap`, a `Map` index on a
missing key, or the `panic!("Unknown operator")` arm). -/

/-- ASCII lower-casing of one character, written as an explicit table
so that it reduces inside the kernel. -/
def lowerChar (c : Char) : Char :=
  match c with
  | 'A' => 'a' | 'B' => 'b' | 'C' => 'c' | 'D' => 'd' | 'E' => 'e'
  | 'F' => 'f' | 'G' => 'g' | 'H' => 'h' | 'I' => 'i' | 'J' => 'j'
  | 'K' => 'k' | 'L' => 'l' | 'M' => 'm' | 'N' => 'n' | 'O' => 'o'
  | 'P' => 'p' | 'Q' => 'q' | 'R' => 'r' | 'S' => 's' | 'T' => 't'
  | 'U' => 'u' | 'V' => 'v' | 'W' => 'w' | 'X' => 'x' | 'Y' => 'y'
  | 'Z' => 'z' | _ => c

/-- `str::eq_ignore_ascii_case`: equality after ASCII lower-casing. -/
def eqIgnoreCase (a b : String) : Bool :=
  a.data.map lowerChar == b.data.map lowerChar

/-- The comparison compiled from a `Compare` node in
`utils::filter_record`, given the row value `val` (after the
`record.get(name).unwrap_or(Null)` lookup) and the node value. -/
def uCompare (op : String) (val value : JValue) : Option Bool :=
  match op with
  | "eq" | "=" | "==" => some (val.beq value)
  | "ne" | "!=" | "≠" => some (!val.beq value)
  | "gt" | ">" =>
    if val.isNull then some false
    else do
      let a ← val.asF64
      let b ← value.asF64
      some (decide (a > b))
  | "ge" | ">=" | "≥" =>
    if val.isNull then some false
    else do
      let a ← val.asF64
      let b ← value.asF64
      some (decide (a ≥ b))
  | "lt" | "<" =>
    if val.isNull then some false
    else do
      let a ← val.asF64
      let b ← value.asF64
      some (decide (a < b))
  | "le" | "<=" | "≤" =>
    if val.isNull then some false
    else do
      let a ← val.asF64
      let b ← value.asF64
      some (decide (a ≤ b))
  | "in" | "∈" =>
    match value with
    | .arr xs => some (xs.any (fun x => x.beq val))
    | _ => some (val.beq value)
  | _ => none

/-- The non-AND/OR branch shared by both evaluators: read `name`,
`op` and `value` out of the whole node map (`map["name"]` panics when
the key is missing or not a string), look the field up in the record
defaulting to `Null`, and hand off to the operator table. -/
def compareBranch (cmp : String → JValue → JValue → Option Bool)
    (record : Row) (m : Row) : Option Bool := do
  let name ← (← JMap.get m "name").asStr
  let op ← (← JMap.get m "op").asStr
  let value ← JMap.get m "value"
  let val := (JMap.get record name).getD .null
  cmp op val value

mutual
/-- `utils::filter_record`: `Null` filter accepts everything, an
`Object` dispatches on its first key (`AND`/`OR` case-insensitive,
otherwise a comparison node), any other filter value rejects. -/
def filterRecordU (record : Row) (filters : JValue) : Option Bool :=
  match filters with
  | .null => some true
  | .obj [] => some false
  | .obj ((k, v) :: rest) =>
    if eqIgnoreCase k "AND" then
      match v with
      | .arr vv => filterAllU record vv
      | _ => none
    else if eqIgnoreCase k "OR" then
      match v with
      | .arr vv => filterAnyU record vv
      | _ => none
    else compareBranch uCompare record ((k, v) :: rest)
  | _ => some false
termination_by structural filters

/-- `Iterator::all` over sub-filters: stops at the first `false`. -/
def filterAllU (record : Row) (l : List JValue) : Option Bool :=
  match l with
  | [] => some true
  | x :: xs => do
    let b ← filterRecordU record x
    if b then filterAllU record xs else some false
termination_by structural l

/-- `Iterator::any` over sub-filters: stops at the first `true`. -/
def filterAnyU (record : Row) (l : List JValue) : Option Bool :=
  match l with
  | [] => some false
  | x :: xs => do
    let b ← filterRecordU record x
    if b then some true else filterAnyU record xs
termination_by structural l
end

/-- The ordering-operator closure in `lib.rs::filter_record` when the
row value is an `Array`: `any` over the elements, treating a `Null`
element as `0.` and panicking (`none`) on a non-numeric element or a
non-numeric node value. -/
def lAnyCmp (cmp : Rat → Rat → Bool) (value : JValue) : List JValue → Option Bool
  | [] => some false
  | x :: xs =>
    match x with
    | .null => do
      let b ← value.asF64
      if cmp 0 b then some true else lAnyCmp cmp value xs
    | _ => do
      let a ← x.asF64
      let b ← value.asF64
      if cmp a b then some true else lAnyCmp cmp value xs

/-- One ordering operator of `lib.rs::filter_record`: `Array` row
values fan out through `lAnyCmp`; a `Null` row value is compared as
`0.`; anything else must convert with `as_f64`. -/
def lOrdCompare (cmp : Rat → Rat → Bool) (val value : JValue) : Option Bool :=
  match val with
  | .arr xs => lAnyCmp cmp value xs
  | .null => do
    let b ← value.asF64
    some (cmp 0 b)
  | _ => do
    let a ← val.asF64
    let b ← value.asF64
    some (cmp a b)

/-- The comparison table of `lib.rs::filter_record`: only the word
operators exist, `eq`/`ne` treat an `Array` row value as membership,
and the ordering operators treat `Null` as `0.`. -/
def lCompare (op : String) (val value : JValue) : Option Bool :=
  match op with
  | "eq" =>
    match val with
    | .arr xs => some (xs.any (fun x => x.beq value))
    | _ => some (val.beq value)
  | "ne" =>
    match val with
    | .arr xs => some (xs.any (fun x => !x.beq value))
    | _ => some (!val.beq value)
  | "gt" => lOrdCompare (fun a b => decide (a > b)) val value
  | "ge" => lOrdCompare (fun a b => decide (a ≥ b)) val value
  | "lt" => lOrdCompare (fun a b => decide (a < b)) val value
  | "le" => lOrdCompare (fun a b => decide (a ≤ b)) val value
  | _ => none

mutual
/-- `lib.rs::filter_record`: same dispatch as `filterRecordU` except
that the `AND`/`OR` keys are matched case-sensitively and the
comparison table is `lCompare`. -/
def filterRecordL (record : Row) (filters : JValue) : Option Bool :=
  match filters with
  | .null => some true
  | .obj [] => some false
  | .obj ((k, v) :: rest) =>
    if k = "AND" then
      match v with
      | .arr vv => filterAllL record vv
      | _ => none
    else if k = "OR" then
      match v with
      | .arr vv => filterAnyL record vv
      | _ => none
    else compareBranch lCompare record ((k, v) :: rest)
  | _ => some false
termination_by structural filters

/-- `Iterator::all` over sub-filters for `filterRecordL`. -/
def filterAllL (record : Row) (l : List JValue) : Option Bool :=
  match l with
  | [] => some true
  | x :: xs => do
    let b ← filterRecordL record x
    if b then filterAllL record xs else some false
termination_by structural l

/-- `Iterator::any` over sub-filters for `filterRecordL`. -/
def filterAnyL (record : Row) (l : List JValue) : Option Bool :=
  match l with
  | [] => some false
  | x :: xs => do
    let b ← filterRecordL record x
    if b then some true else filterAnyL record xs
termination_by structural l
end

/-! ## Outer join (`utils::outer_join`)

The Rust function mutates a `Vec` of tables in place, popping from the
back.  The embedding makes the same traversal explicit: the last table
is the accumulator (`right_table`) and `joinLoop` consumes the
remaining `(table, key)` pairs back to front.  Panics (`[0]` on an
empty table, `as_str().unwrap()` on a non-string join value) surface
as `JoinErr.crash`; the length-mismatch `Result::Err` keeps its own
constructor. -/

inductive JoinErr where
  | mismatch
  | crash

/-- The substring before the first `.` (`split(".")` + `first()`). -/
def preDot (s : String) : String :=
  ⟨s.data.takeWhile (fun c => c ≠ '.')⟩

/-- Join-key token of a row: `Null`/absent becomes the `__MISSING__`
sentinel, a string is cut at the first dot, anything else panics
(`as_str().unwrap()`). -/
def matchToken (row : Row) (key : String) : Option String :=
  match JMap.get row key with
  | none => some (preDot "__MISSING__")
  | some .null => some (preDot "__MISSING__")
  | some (.str s) => some (preDot s)
  | some _ => none

/-- `Iterator::position` over the left table followed by
`Vec::remove`: find the first row whose join token equals `tok`,
returning the row and the table without it.  The outer `none` is a
panic raised while evaluating the position predicate. -/
def findMatch (leftKey tok : String) : Table → Option (Option (Row × Table))
  | [] => some none
  | row :: rest =>
    match matchToken row leftKey with
    | none => none
    | some t =>
      if t = tok then some (some (row, rest))
      else
        match findMatch leftKey tok rest with
        | none => none
        | some none => some none
        | some (some (r, rem)) => some (some (r, row :: rem))

/-- One field of a matched left row: written into the accumulator row
only when the accumulator holds `Null` or nothing at that key
(`if right_entry.get(&k).unwrap_or(&Value::Null) == &Value::Null`). -/
def mergeField (acc : Row) (kv : String × JValue) : Row :=
  match JMap.get acc kv.1 with
  | none => JMap.insert kv.1 kv.2 acc
  | some .null => JMap.insert kv.1 kv.2 acc
  | some _ => acc

/-- Merge a matched left row into an accumulator row (`utils.rs`
186-192), field by field in map order. -/
def mergeMatched (racc left : Row) : Row :=
  left.foldl mergeField racc

/-- One column of the `Null`-filling pass: insert `Null` where the
row holds `Null` or nothing. -/
def fillField (acc : Row) (k : String) : Row :=
  match JMap.get acc k with
  | none => JMap.insert k .null acc
  | some .null => JMap.insert k .null acc
  | some _ => acc

/-- Fill `Null` at every listed column that is `Null`/absent. -/
def fillNulls (keys : List String) (r : Row) : Row :=
  keys.foldl fillField r

/-- The `right_table.iter_mut().for_each(...)` pass: walk the
accumulator rows, consuming matching left rows; returns the updated
accumulator rows and the remaining left table. -/
def mergeRights (leftKey rightKey : String) (leftKeys : List String) :
    Table → Table → Option (Table × Table)
  | lefts, [] => some ([], lefts)
  | lefts, r :: rs =>
    match matchToken r rightKey with
    | none => none
    | some tok =>
      match findMatch leftKey tok lefts with
      | none => none
      | some none =>
        match mergeRights leftKey rightKey leftKeys lefts rs with
        | none => none
        | some (rs', lrem) => some (fillNulls leftKeys r :: rs', lrem)
      | some (some (lrow, lrem)) =>
        match mergeRights leftKey rightKey leftKeys lrem rs with
        | none => none
        | some (rs', lrem') => some (mergeMatched r lrow :: rs', lrem')

/-- One iteration of the `while let Some(mut left_table)` loop: read
the two first rows (panicking on an empty table), merge, then append
the unmatched left rows padded with `Null` at the accumulator's
columns. -/
def joinStep (left : Table) (leftKey : String) (right : Table)
    (rightKey : String) : Option Table :=
  match left, right with
  | lrow :: _, rrow :: _ =>
    let leftKeys := lrow.map Prod.fst
    let rightKeys := rrow.map Prod.fst
    match mergeRights leftKey rightKey leftKeys left right with
    | none => none
    | some (rights', leftsRem) =>
      some (rights' ++ leftsRem.map (fillNulls rightKeys))
  | _, _ => none

/-- Fold `joinStep` over the remaining `(table, key)` pairs, ordered
back to front as the Rust `pop` loop visits them. -/
def joinLoop (rightKey : String) : List (Table × String) → Table → Option Table
  | [], acc => some acc
  | (left, leftKey) :: rest, acc =>
    match joinStep left leftKey acc rightKey with
    | none => none
    | some acc' => joinLoop rightKey rest acc'

/-- `utils::outer_join`.  Note the order of the two guards: an empty
table list returns `Ok(vec![])` before the length check runs. -/
def outer_join (tables : List Table) (keys : List String) :
    Except JoinErr Table :=
  if tables.isEmpty then .ok []
  else if tables.length ≠ keys.length then .error .mismatch
  else
    match tables.reverse, keys.reverse with
    | rt :: restT, rk :: restK =>
      match joinLoop rk (restT.zip restK) rt with
      | none => .error .crash
      | some t => .ok t
    | _, _ => .ok []

/-! ## Exploder (`utils::explode_data` / `lib.rs::explode_data`) -/

/-- `Value::as_object`. -/
def JValue.asObj : JValue → Option Row
  | .obj m => some m
  | _ => none

/-- `Value::get` on an object (`None` otherwise). -/
def JValue.getKey (v : JValue) (k : String) : Option JValue :=
  match v with
  | .obj m => JMap.get m k
  | _ => none

/-- The row built for one element of the exploded array: copy the
root object, drop every key in `drops`, then insert each element
field under `"{key}.{k}"`. -/
def explodeRow (root : Row) (key : String) (drops : List String)
    (elem : Row) : Row :=
  elem.foldl
    (fun acc kv => JMap.insert (key ++ "." ++ kv.1) kv.2 acc)
    (drops.foldl (fun acc d => JMap.remove d acc) root)

/-- The per-element loop of `explode_data`: each array element must
be an object (`panic!("Array should contain objects")` otherwise),
and the root must expose its fields (`data.as_object().unwrap()`). -/
def explodeElems (data : JValue) (key : String) (drops : List String) :
    List JValue → Option (List Row)
  | [] => some []
  | a :: rest =>
    match data.asObj, a with
    | some root, .obj m =>
      match explodeElems data key drops rest with
      | none => none
      | some rows => some (explodeRow root key drops m :: rows)
    | _, _ => none

/-- `explode_data`: the value at `key` must be an array of objects
(each offending shape panics, modelled as `none`). -/
def explode_data (data : JValue) (key : String) (drops : List String) :
    Option (List Row) :=
  match (data.getKey key).getD .null with
  | .arr arr => explodeElems data key drops arr
  | _ => none

/-! ## Record decoder (`variant.rs`, INFO fields)

Only the INFO-decoding loop of `Variant::new` is embedded (the claims
bear on it); the genotype loop and the positional fields are plain
per-sample/per-column repetitions of the same parsing rules.  Raw
tokens arrive as `String`s (`str::from_utf8` failures are not
modelled; no claim involves invalid UTF-8).  `f64` parsing is modelled
exactly over `Rat` (no rounding; the `inf`/`NaN` spellings accepted by
Rust are not modelled as no claim uses them). -/

def digitsToNat (ds : List Char) : Nat :=
  ds.foldl (fun n c => n * 10 + (c.toNat - '0'.toNat)) 0

/-- `i64::from_str`: optional sign then one or more digits
(overflow is not modelled). -/
def parseIntStr (s : String) : Option Int :=
  match s.data with
  | [] => none
  | '+' :: ds =>
    if ds ≠ [] ∧ ds.all (·.isDigit) then some (digitsToNat ds) else none
  | '-' :: ds =>
    if ds ≠ [] ∧ ds.all (·.isDigit) then some (-(digitsToNat ds : Int)) else none
  | ds =>
    if ds.all (·.isDigit) then some (digitsToNat ds) else none

/-- `f64::from_str` on the numeric forms
`[+-]? (digits [. digits?] | . digits) ([eE] [+-]? digits)?`. -/
def parseFloatStr (s : String) : Option Rat :=
  let go : List Char → Option Rat := fun cs =>
    let intDigits := cs.takeWhile (·.isDigit)
    let rest1 := cs.drop intDigits.length
    let fracDigits :=
      match rest1 with
      | '.' :: r => r.takeWhile (·.isDigit)
      | _ => []
    let rest2 :=
      match rest1 with
      | '.' :: r => r.drop fracDigits.length
      | _ => rest1
    if intDigits.isEmpty ∧ fracDigits.isEmpty then none
    else
      let mant : Rat :=
        mkRat (digitsToNat (intDigits ++ fracDigits)) (10 ^ fracDigits.length)
      match rest2 with
      | [] => some mant
      | e :: r =>
        if e = 'e' ∨ e = 'E' then
          let (esgn, r2) :=
            match r with
            | '+' :: rr => ((1 : Int), rr)
            | '-' :: rr => ((-1 : Int), rr)
            | rr => ((1 : Int), rr)
          if r2 ≠ [] ∧ r2.all (·.isDigit) then
            if esgn ≥ 0 then some (mant * ((10 : Rat) ^ digitsToNat r2))
            else some (mant / ((10 : Rat) ^ digitsToNat r2))
          else none
        else none
  match s.data with
  | '+' :: cs => go cs
  | '-' :: cs => (go cs).map (fun q => -q)
  | cs => go cs

/-- `utils::try_parse_number`: a token containing `.`/`e`/`E` is tried
as a float, the empty token is `Null`, anything else is tried as an
integer; failures fall back to `String`. -/
def try_parse_number (input : String) : JValue :=
  if input.contains '.' || input.contains 'e' || input.contains 'E' then
    match parseFloatStr input with
    | some q => .num (.f q)
    | none => .str input
  else if input = "" then .null
  else
    match parseIntStr input with
    | some n => .num (.i n)
    | none => .str input

/-- `vcf::ValueType` (the decoder tests `Flag`, `Integer`, `Float`). -/
inductive VcfValueType where
  | flag
  | integer
  | float
  | string
  | character
deriving DecidableEq

/-- `vcf::Number` (the decoder only tests `Allele`). -/
inductive VcfNumber where
  | allele
  | zero
  | reference
  | genotype
  | unknown
  | fixed (n : Int)
deriving DecidableEq

/-- The schema entry for one declared INFO field. -/
structure InfoField where
  id : String
  value_type : VcfValueType
  number : VcfNumber

/-- Decoder errors: numeric-parse failures are per-record `Err`s
(`?` on `parse::<i64>()` / `parse::<f64>()`); `crash` marks a panic
(the `[0]` index on an empty collected vector). -/
inductive DecodeErr where
  | parseErr
  | crash

/-- Plain association-list lookup for the `csq_headers` map. -/
def lookupHeader (csq : List (String × List String)) (k : String) :
    Option (List String) :=
  match csq with
  | [] => none
  | (k', v) :: rest => if k' = k then some v else lookupHeader rest k

/-- One CSQ annotation block: split the token on `|`, zip against the
declared subfield names, coerce each piece with `try_parse_number`. -/
def decodeCsqToken (hdrs : List String) (tok : String) : Row :=
  (hdrs.zip (tok.splitOn "|")).foldl
    (fun m kv => JMap.insert kv.1 (try_parse_number kv.2) m) []

/-- The `val` computed for one declared INFO field in `Variant::new`
(`variant.rs` lines 66-163), from the raw tokens of the record
(`none` when the field is absent). -/
def decodeInfoVal (csq : List (String × List String)) (field : InfoField)
    (dat? : Option (List String)) : Except DecodeErr JValue :=
  match dat? with
  | some dat =>
    if field.value_type = .flag then .ok (.bool true)
    else if field.value_type = .integer then
      if field.number = .allele then
        match dat.mapM (fun x =>
            if x = "." then Except.ok JValue.null
            else
              match parseIntStr x with
              | some n => Except.ok (JValue.num (.i n))
              | none => Except.error DecodeErr.parseErr) with
        | .error e => .error e
        | .ok [] => .error .crash
        | .ok (v :: _) => .ok v
      else
        match dat with
        | [] => .ok .null
        | x :: _ =>
          if x = "." then .ok .null
          else
            match parseIntStr x with
            | some n => .ok (.num (.i n))
            | none => .error .parseErr
    else if field.value_type = .float then
      if field.number = .allele then
        match dat.mapM (fun x =>
            if x = "." then Except.ok JValue.null
            else
              match parseFloatStr x with
              | some q => Except.ok (JValue.num (.f q))
              | none => Except.error DecodeErr.parseErr) with
        | .error e => .error e
        | .ok [] => .error .crash
        | .ok (v :: _) => .ok v
      else
        match dat with
        | [] => .ok .null
        | x :: _ =>
          if x = "." then .ok .null
          else
            match parseFloatStr x with
            | some q => .ok (.num (.f q))
            | none => .error .parseErr
    else
      match lookupHeader csq field.id with
      | some hdrs => .ok (.arr (dat.map (fun tok => .obj (decodeCsqToken hdrs tok))))
      | none =>
        if field.number = .allele then
          match dat with
          | [] => .error .crash
          | x :: _ => .ok (.str x)
        else
          match dat with
          | [] => .ok .null
          | x :: _ => .ok (.str x)
  | none =>
    if field.value_type = .flag then .ok (.bool false)
    else
      match lookupHeader csq field.id with
      | some hdrs =>
        .ok (.arr [.obj (hdrs.foldl (fun m k => JMap.insert k .null m) [])])
      | none => .ok .null

/-- The INFO-building loop of `Variant::new`, one declared field at a
time: decode, then insert under the field id — the insert is
unconditional, whatever `decodeInfoVal` produced. -/
def buildInfoAux (csq : List (String × List String))
    (data : String → Option (List String)) :
    List InfoField → Row → Except DecodeErr Row
  | [], m => .ok m
  | f :: rest, m =>
    match decodeInfoVal csq f (data f.id) with
    | .error e => .error e
    | .ok v => buildInfoAux csq data rest (JMap.insert f.id v m)

/-- The full INFO object of `Variant::new` (`variant.rs` 62-165). -/
def buildInfo (fields : List InfoField) (csq : List (String × List String))
    (data : String → Option (List String)) : Except DecodeErr Row :=
  buildInfoAux csq data fields []

/-! ## Filter expression grammar (`parser.rs`)

The pom combinators are `position → Result<(output, position)>`
functions with ordered choice (PEG semantics: a branch that succeeds
commits); the embedding uses `List Char → Option (output × List Char)`
in the same style.  The grammar functions are mutually recursive
through `call(...)`; termination in the embedding comes from a fuel
parameter, and `parse_logic_expr` supplies more fuel than the
recursion (which consumes input at every nesting level) can use. -/

def isSpaceChar (c : Char) : Bool :=
  c = ' ' ∨ c = '\t' ∨ c = '\r' ∨ c = '\n'

/-- `space()`: `one_of(b" \t\r\n").repeat(0..)`. -/
def dropSpaces (cs : List Char) : List Char :=
  cs.dropWhile isSpaceChar

def identChar (c : Char) : Bool :=
  c.isAlphanum || c = '.' || c = '_'

/-- `ident()`: one or more identifier characters. -/
def pIdent (cs : List Char) : Option (String × List Char) :=
  match cs.takeWhile identChar with
  | [] => none
  | tk => some (⟨tk⟩, cs.drop tk.length)

/-- `seq(...)`: match an exact literal. -/
def pLit (lit : String) (cs : List Char) : Option (List Char) :=
  if lit.data.isPrefixOf cs then some (cs.drop lit.data.length) else none

/-- A letter-by-letter case-insensitive literal (the
`(seq(b"t") | seq(b"T")) + ...` pattern), `lit` given in lowercase. -/
def pLitCI (lit : String) (cs : List Char) : Option (List Char) :=
  go lit.data cs
where
  go : List Char → List Char → Option (List Char)
    | [], cs => some cs
    | l :: ls, c :: cs => if lowerChar c = l then go ls cs else none
    | _ :: _, [] => none

/-- `operator()`: the ordered alternative list, longest-first where it
matters (`==` before `=`, `<=`/`>=` before `<`/`>`). -/
def pOperator (cs : List Char) : Option (String × List Char) :=
  go ["==", "is", "=", "<=", ">=", "!=", "<", ">",
      "eq", "ne", "gt", "ge", "lt", "le", "in", "≥", "≤"] cs
where
  go : List String → List Char → Option (String × List Char)
    | [], _ => none
    | op :: ops, cs =>
      match pLit op cs with
      | some rest => some (op, rest)
      | none => go ops cs

/-- The `integer` sub-parser of `real_number` (consumed characters):
a nonzero digit then any digits, or a single `0`. -/
def pIntegerPart (cs : List Char) : Option (List Char × List Char) :=
  match cs with
  | c :: rest =>
    if '1' ≤ c ∧ c ≤ '9' then
      let ds := rest.takeWhile (·.isDigit)
      some (c :: ds, rest.drop ds.length)
    else if c = '0' then some (['0'], rest)
    else none
  | [] => none

/-- `one_of(b"0123456789").repeat(1..)`. -/
def pDigits1 (cs : List Char) : Option (List Char × List Char) :=
  match cs.takeWhile (·.isDigit) with
  | [] => none
  | ds => some (ds, cs.drop ds.length)

/-- The rational denoted by sign/mantissa-digits/fraction-length/
exponent, i.e. the exact value `f64::from_str` sees. -/
def ratOfParts (sgn : Int) (m : Nat) (fracLen : Nat) (e : Int) : Rat :=
  if e ≥ 0 then mkRat (sgn * m * 10 ^ e.toNat) (10 ^ fracLen)
  else mkRat (sgn * m) (10 ^ fracLen * 10 ^ (-e).toNat)

/-- `real_number()`: `-`? integer frac? exp?, collected and converted
through `f64::from_str` (modelled exactly on `Rat`). -/
def pRealNumber (cs : List Char) : Option (Rat × List Char) :=
  let (sgn, cs1) :=
    match cs with
    | '-' :: r => ((-1 : Int), r)
    | r => ((1 : Int), r)
  match pIntegerPart cs1 with
  | none => none
  | some (ip, cs2) =>
    let (fd, cs3) :=
      match cs2 with
      | '.' :: r =>
        match pDigits1 r with
        | some (ds, r') => (ds, r')
        | none => (([] : List Char), cs2)
      | _ => ([], cs2)
    let (ex, cs4) :=
      match cs3 with
      | e :: r =>
        if e = 'e' ∨ e = 'E' then
          match r with
          | s :: r' =>
            if s = '+' ∨ s = '-' then
              match pDigits1 r' with
              | some (ds, r'') =>
                ((if s = '-' then -(digitsToNat ds : Int) else (digitsToNat ds : Int)), r'')
              | none => ((0 : Int), cs3)
            else
              match pDigits1 r with
              | some (ds, r'') => ((digitsToNat ds : Int), r'')
              | none => ((0 : Int), cs3)
          | [] => ((0 : Int), cs3)
        else ((0 : Int), cs3)
      | [] => ((0 : Int), cs3)
    some (ratOfParts sgn (digitsToNat (ip ++ fd)) fd.length ex, cs4)

/-- `str()`: a double-quoted run of non-quote characters. -/
def pQuoted (cs : List Char) : Option (String × List Char) :=
  match cs with
  | '"' :: rest =>
    let body := rest.takeWhile (fun c => c ≠ '"')
    match rest.drop body.length with
    | '"' :: rest' => some (⟨body⟩, rest')
    | _ => none
  | _ => none

/-- `bool()`: both the `true` and the `false` spelling produce
`Value::Bool(true)` — the `false` arm's `.map(|_| Value::Bool(true))`
is the bug claim C9 describes. -/
def pBoolLit (cs : List Char) : Option (JValue × List Char) :=
  match pLitCI "true" cs with
  | some rest => some (.bool true, rest)
  | none =>
    match pLitCI "false" cs with
    | some rest => some (.bool true, rest)
    | none => none

/-- `none()`: the `none` spelling, case-insensitive. -/
def pNoneLit (cs : List Char) : Option (List Char) :=
  pLitCI "none" cs

/-- The alternative chain of `value()`: ordered choice between
number, integer, quoted string, boolean, none and bare identifier. -/
def pValueCore (cs : List Char) : Option (JValue × List Char) :=
  match pRealNumber cs with
  | some (q, rest) => some (.num (.f q), rest)
  | none =>
    match pIntegerPart cs with
    | some (ds, rest) => some (.num (.i (ds.headD '0').toNat), rest)
    | none =>
      match pQuoted cs with
      | some (s, rest) => some (.str s, rest)
      | none =>
        match pBoolLit cs with
        | some r => some r
        | none =>
          match pNoneLit cs with
          | some rest => some (.null, rest)
          | none =>
            match pIdent cs with
            | some (s, rest) => some (.str s, rest)
            | none => none

/-- `value()`: the alternative chain with surrounding whitespace. -/
def pValue (cs : List Char) : Option (JValue × List Char) :=
  match pValueCore (dropSpaces cs) with
  | some (v, rest) => some (v, dropSpaces rest)
  | none => none

/-- The separator of the value list: an optional comma, then
whitespace — it always succeeds. -/
def sepSkip (cs : List Char) : List Char :=
  match cs with
  | ',' :: r => dropSpaces r
  | r => dropSpaces r

/-- The loop of `list(value(), separator)` after its first element:
the separator always succeeds, the loop stops (and the separator
consumption is backtracked) when the next `value()` fails.  Each
accepted `value()` consumes at least one character, so the fuel
handed over by `pValueList` never runs out. -/
def pValueListAux : Nat → List Char → List JValue → (List JValue × List Char)
  | 0, cs, acc => (acc.reverse, cs)
  | fuel + 1, cs, acc =>
    match pValue (sepSkip cs) with
    | none => (acc.reverse, cs)
    | some (v, cs2) => pValueListAux fuel cs2 (v :: acc)

/-- `list(value(), ...)`: zero or more comma/space-separated values. -/
def pValueList (cs : List Char) : (List JValue × List Char) :=
  match pValue cs with
  | none => ([], cs)
  | some (v, cs1) => pValueListAux (cs1.length + 1) cs1 [v]

/-- The grouped alternative of `property_val()`: a parenthesised
value list (a literal array for `in`). -/
def pGroupVal (cs : List Char) : Option (JValue × List Char) :=
  match cs with
  | '(' :: cs1 =>
    match pValueList cs1 with
    | (vs, cs2) =>
      match cs2 with
      | ')' :: cs3 => some (.arr vs, cs3)
      | _ => none
  | _ => none

/-- `property_val()`: the grouped alternative or a single value, with
surrounding whitespace. -/
def pPropertyVal (cs : List Char) : Option (JValue × List Char) :=
  match pGroupVal (dropSpaces cs) with
  | some (v, rest) => some (v, dropSpaces rest)
  | none =>
    match pValue (dropSpaces cs) with
    | some (v, rest) => some (v, dropSpaces rest)
    | none => none

/-- `json!({"name": lval, "op": op, "value": rval})` (keys already in
`BTreeMap` order). -/
def mkCmp (lval : JValue) (op : String) (rval : JValue) : JValue :=
  .obj [("name", lval), ("op", .str op), ("value", rval)]

def pAnd (cs : List Char) : Option (List Char) :=
  pLitCI "and" cs

def pOr (cs : List Char) : Option (List Char) :=
  pLitCI "or" cs

/-- `and_or()`: the canonical key for the matched connective. -/
def pAndOr (cs : List Char) : Option (String × List Char) :=
  match pAnd cs with
  | some rest => some ("AND", rest)
  | none =>
    match pOr cs with
    | some rest => some ("OR", rest)
    | none => none

/-- The first alternative of `boolean_condition()`: the comparison
`property_val operator property_val`. -/
def pCmpCondition (cs : List Char) : Option (JValue × List Char) :=
  match pPropertyVal cs with
  | none => none
  | some (l, cs1) =>
    match pOperator cs1 with
    | none => none
    | some (op, cs2) =>
      match pPropertyVal cs2 with
      | none => none
      | some (r, cs3) => some (mkCmp l op r, cs3)

mutual
/-- `boolean_condition()`: a comparison `property_val operator
property_val`, or a parenthesised `boolean_expression`. -/
def boolCondition (fuel : Nat) (cs : List Char) : Option (JValue × List Char) :=
  match fuel with
  | 0 => none
  | fuel + 1 =>
    let cs := dropSpaces cs
    match pCmpCondition cs with
    | some (v, rest) => some (v, dropSpaces rest)
    | none =>
      match cs with
      | '(' :: cs1 =>
        match boolExpression fuel cs1 with
        | none => none
        | some (v, cs2) =>
          match cs2 with
          | ')' :: cs3 => some (v, dropSpaces cs3)
          | _ => none
      | _ => none

/-- `and_expression()`: one `AND` application or a bare condition. -/
def andExpression (fuel : Nat) (cs : List Char) : Option (JValue × List Char) :=
  match fuel with
  | 0 => none
  | fuel + 1 =>
    let both : Option (JValue × List Char) :=
      match boolCondition fuel cs with
      | none => none
      | some (c1, cs1) =>
        match pAnd cs1 with
        | none => none
        | some cs2 =>
          match boolCondition fuel cs2 with
          | none => none
          | some (c2, cs3) => some (.obj [("AND", .arr [c1, c2])], cs3)
    match both with
    | some r => some r
    | none => boolCondition fuel cs

/-- `or_expression()`: one `OR` application over `and_expression`s. -/
def orExpression (fuel : Nat) (cs : List Char) : Option (JValue × List Char) :=
  match fuel with
  | 0 => none
  | fuel + 1 =>
    let both : Option (JValue × List Char) :=
      match andExpression fuel cs with
      | none => none
      | some (c1, cs1) =>
        match pOr cs1 with
        | none => none
        | some cs2 =>
          match andExpression fuel cs2 with
          | none => none
          | some (c2, cs3) => some (.obj [("OR", .arr [c1, c2])], cs3)
    match both with
    | some r => some r
    | none => andExpression fuel cs

/-- `boolean_expression()` (used inside parentheses): right-recursive
`condition (and_or boolean_expression)?`. -/
def boolExpression (fuel : Nat) (cs : List Char) : Option (JValue × List Char) :=
  match fuel with
  | 0 => none
  | fuel + 1 =>
    let chained : Option (JValue × List Char) :=
      match boolCondition fuel cs with
      | none => none
      | some (c1, cs1) =>
        match pAndOr cs1 with
        | none => none
        | some (key, cs2) =>
          match boolExpression fuel cs2 with
          | none => none
          | some (c2, cs3) => some (.obj [(key, .arr [c1, c2])], cs3)
    match chained with
    | some r => some r
    | none => boolCondition fuel cs
end

/-- `parse_logic_expr`: leading whitespace, `or_expression`, then
`end()` (all input must be consumed).  pom's positioned error values
collapse to `none`.  The fuel bound exceeds the recursion depth the
grammar can reach on the given input (every two levels consume at
least one character). -/
def parse_logic_expr (input : String) : Option JValue :=
  let cs := dropSpaces input.data
  match orExpression (4 * (input.length + 1)) cs with
  | some (v, rest) => if rest.isEmpty then some v else none
  | none => none

/-! ## Claim theorems -/

/-- An absent non-Flag non-composite field decodes to `Null`
(`variant.rs` line 160). -/
theorem decodeInfoVal_absent (csq : List (String × List String))
    (field : InfoField) (hflag : field.value_type ≠ .flag)
    (hcsq : lookupHeader csq field.id = none) :
    decodeInfoVal csq field none = .ok .null := by
  simp [decodeInfoVal, hflag, hcsq]

/-- Fields whose ids differ from `k` never touch the entry at `k`. -/
theorem buildInfoAux_get_untouched (csq : List (String × List String))
    (data : String → Option (List String)) (fields : List InfoField)
    (m res : Row) (k : String)
    (hok : buildInfoAux csq data fields m = .ok res)
    (hnm : ∀ g ∈ fields, g.id ≠ k) :
    JMap.get res k = JMap.get m k := by
  induction fields generalizing m with
  | nil =>
    simp only [buildInfoAux] at hok
    cases hok
    rfl
  | cons f rest ih =>
    simp only [buildInfoAux] at hok
    cases hd : decodeInfoVal csq f (data f.id) with
    | error e => rw [hd] at hok; cases hok
    | ok v =>
      rw [hd] at hok
      have step := ih _ hok (fun g hg => hnm g (List.mem_cons_of_mem _ hg))
      rw [step, JMap.get_insert_ne]
      exact fun hh => hnm f (List.mem_cons_self _ _) hh.symm

/-- Generalisation of claim C2 (amended) over the accumulator. -/
theorem buildInfoAux_absent_field_null (csq : List (String × List String))
    (data : String → Option (List String)) (f : InfoField) :
    ∀ (fields : List InfoField) (m res : Row),
    f ∈ fields → (fields.map InfoField.id).Nodup →
    f.value_type ≠ .flag → lookupHeader csq f.id = none →
    data f.id = none → buildInfoAux csq data fields m = .ok res →
    JMap.get res f.id = some .null := by
  intro fields
  induction fields with
  | nil => intro m res hmem; cases hmem
  | cons g rest ih =>
    intro m res hmem hnodup hflag hcsq habs hok
    simp only [buildInfoAux] at hok
    cases hd : decodeInfoVal csq g (data g.id) with
    | error e => rw [hd] at hok; cases hok
    | ok v =>
      rw [hd] at hok
      rcases List.mem_cons.mp hmem with heq | hmemr
      · subst heq
        rw [habs, decodeInfoVal_absent csq f hflag hcsq] at hd
        injection hd with hv
        subst hv
        rw [List.map_cons, List.nodup_cons] at hnodup
        have hne : ∀ x ∈ rest, x.id ≠ f.id := fun x hx hxe =>
          hnodup.1 (hxe ▸ List.mem_map_of_mem _ hx)
        have step := buildInfoAux_get_untouched csq data rest _ res f.id hok hne
        rw [step, JMap.get_insert_self]
      · rw [List.map_cons, List.nodup_cons] at hnodup
        exact ih _ res hmemr hnodup.2 hflag hcsq habs hok

/-- Claim C2, amended: a declared INFO field that is non-Flag,
non-composite and entirely absent from the record ends up in the
`info` object mapped to `Null` — the key is inserted with a `Null`
value, not omitted. -/
theorem buildInfo_absent_field_null (fields : List InfoField)
    (csq : List (String × List String))
    (data : String → Option (List String)) (f : InfoField) (res : Row)
    (hmem : f ∈ fields) (hnodup : (fields.map InfoField.id).Nodup)
    (hflag : f.value_type ≠ .flag)
    (hcsq : lookupHeader csq f.id = none)
    (habs : data f.id = none)
    (hok : buildInfo fields csq data = .ok res) :
    JMap.get res f.id = some .null :=
  buildInfoAux_absent_field_null csq data f fields [] res hmem hnodup hflag
    hcsq habs hok

/-- Witness for `buildInfo_absent_field_null`: a run with one declared
`Float` field `AF` and no data. -/
theorem buildInfo_absent_field_null_witness :
    JMap.get [("AF", JValue.null)] "AF" = some .null :=
  buildInfo_absent_field_null [⟨"AF", .float, .unknown⟩] [] (fun _ => none)
    ⟨"AF", .float, .unknown⟩ [("AF", JValue.null)]
    (List.mem_cons_self _ _) (by simp) (by simp) rfl rfl rfl

/-- Claim C2, counterexample: decoding a record where the declared
non-Flag non-composite field `AF` is absent yields an `info` object in
which the key `AF` is present and mapped to `Null`, contradicting
"the key is omitted". -/
theorem buildInfo_absent_field_key_present :
    buildInfo [⟨"AF", .float, .unknown⟩] [] (fun _ => none) =
      .ok [("AF", JValue.null)] ∧
    JMap.get [("AF", JValue.null)] "AF" ≠ none :=
  ⟨rfl, by simp [JMap.get]⟩

/-- Claim C3, counterexample: with zero tables and a non-empty key
list the lengths differ, yet `outer_join` returns a result table
(`Ok(vec![])`) because the empty-tables early return precedes the
length check (`utils.rs` 154-159). -/
theorem outer_join_nil_tables_ok :
    outer_join [] ["k"] = .ok [] := rfl

/-- Claim C3, amended: for every call with at least one table and a
key list of a different length, `outer_join` returns the
length-mismatch error rather than a result table. -/
theorem outer_join_length_mismatch (tables : List Table) (keys : List String)
    (hne : tables ≠ []) (hlen : tables.length ≠ keys.length) :
    outer_join tables keys = .error .mismatch := by
  unfold outer_join
  rw [if_neg (by simpa [List.isEmpty_iff] using hne), if_pos hlen]

/-- Witness for `outer_join_length_mismatch`: one (empty) table,
zero keys. -/
theorem outer_join_length_mismatch_witness :
    outer_join [[]] [] = .error .mismatch :=
  outer_join_length_mismatch [[]] [] (List.cons_ne_nil _ _) (by decide)

/-- Claim C6: parsing `"(foo == bar or baz > 10) AND baz <= 5"`
succeeds and yields the parenthesised `OR` group as the left `AND`
operand with the numeric literals as floats. -/
theorem parse_logic_expr_grouping :
    parse_logic_expr "(foo == bar or baz > 10) AND baz <= 5" =
      some (.obj [("AND", .arr [
        .obj [("OR", .arr [
          .obj [("name", .str "foo"), ("op", .str "=="), ("value", .str "bar")],
          .obj [("name", .str "baz"), ("op", .str ">"),
                ("value", .num (.f 10))]])],
        .obj [("name", .str "baz"), ("op", .str "<="),
              ("value", .num (.f 5))]])]) := rfl

/-- The element loop of `explode_data` on all-object arrays produces
exactly one `explodeRow` per element, in order. -/
theorem explodeElems_spec (m : Row) (key : String) (drops : List String) :
    ∀ (elems : List JValue), (∀ e ∈ elems, (e.asObj).isSome) →
    explodeElems (.obj m) key drops elems =
      some (elems.map (fun e => explodeRow m key drops (e.asObj.getD []))) := by
  intro elems
  induction elems with
  | nil => intro _; rfl
  | cons e es ih =>
    intro hobj
    have hes := fun x hx => hobj x (List.mem_cons_of_mem _ hx)
    have he := hobj e (List.mem_cons_self _ _)
    cases e with
    | obj em =>
      show (match explodeElems (JValue.obj m) key drops es with
            | none => none
            | some rows => some (explodeRow m key drops em :: rows)) = _
      rw [ih hes]
      rfl
    | null => simp [JValue.asObj] at he
    | bool b => simp [JValue.asObj] at he
    | num n => simp [JValue.asObj] at he
    | str s => simp [JValue.asObj] at he
    | arr xs => simp [JValue.asObj] at he

/-- Claim C7: when the value at the explode key is an array whose
elements are all objects, `explode_data` returns one output row per
element, in order, each row being the root minus the drop keys plus
the element's fields under `"{key}.{field}"` (`explodeRow`). -/
theorem explode_data_spec (m : Row) (key : String) (drops : List String)
    (elems : List JValue)
    (hget : JMap.get m key = some (.arr elems))
    (hobj : ∀ e ∈ elems, (e.asObj).isSome) :
    explode_data (.obj m) key drops =
      some (elems.map (fun e => explodeRow m key drops (e.asObj.getD []))) := by
  have hkey : ((JValue.obj m).getKey key).getD .null = .arr elems := by
    simp [JValue.getKey, hget]
  unfold explode_data
  rw [hkey]
  exact explodeElems_spec m key drops elems hobj

/-- Witness for `explode_data_spec`: the worked example of the claim,
`{"a":1,"b":2,"c":[{"foo":"A","bar":"B"},{"foo":"a","bar":"b"}]}`
exploded on `"c"` with drops `["b","c"]` (objects in `BTreeMap` key
order). -/
theorem explode_data_spec_witness :
    explode_data
      (.obj [("a", .num (.i 1)), ("b", .num (.i 2)),
             ("c", .arr [.obj [("bar", .str "B"), ("foo", .str "A")],
                         .obj [("bar", .str "b"), ("foo", .str "a")]])])
      "c" ["b", "c"] =
      some [[("a", .num (.i 1)), ("c.bar", .str "B"), ("c.foo", .str "A")],
            [("a", .num (.i 1)), ("c.bar", .str "b"), ("c.foo", .str "a")]] := by
  have h := explode_data_spec
    [("a", .num (.i 1)), ("b", .num (.i 2)),
     ("c", .arr [.obj [("bar", .str "B"), ("foo", .str "A")],
                 .obj [("bar", .str "b"), ("foo", .str "a")]])]
    "c" ["b", "c"]
    [.obj [("bar", .str "B"), ("foo", .str "A")],
     .obj [("bar", .str "b"), ("foo", .str "a")]]
    rfl (by decide)
  exact h.trans rfl

/-- The ordering-operator table of `utils::filter_record`: canonical
name and symbol aliases, mapped to the numeric comparison they
perform. -/
def ordFn (o : String) : Option (Rat → Rat → Bool) :=
  match o with
  | "gt" | ">" => some (fun a b => decide (a > b))
  | "ge" | ">=" | "≥" => some (fun a b => decide (a ≥ b))
  | "lt" | "<" => some (fun a b => decide (a < b))
  | "le" | "<=" | "≤" => some (fun a b => decide (a ≤ b))
  | _ => none

/-- A canonical comparison node dispatches to its operator: the first
key `name` is neither `AND` nor `OR`, so `utils::filter_record` reads
the node's three fields and applies the operator table. -/
theorem filterU_cmp_node (r : Row) (n o : String) (v : JValue) :
    filterRecordU r (mkCmp (.str n) o v) =
      uCompare o ((JMap.get r n).getD .null) v := by
  show compareBranch uCompare r
    [("name", .str n), ("op", .str o), ("value", v)] = _
  simp [compareBranch, JMap.get, JValue.asStr, bind, Option.bind]

/-- Claim C1: for an ordering operator (canonical or symbol alias), a
`Null` or absent row value evaluates to `false`, and a numeric row
value compared against a numeric node value evaluates to the
corresponding numeric comparison. -/
theorem filterU_ordering_ops (r : Row) (n o : String) (v : JValue)
    (f : Rat → Rat → Bool) (hop : ordFn o = some f) :
    ((JMap.get r n = none ∨ JMap.get r n = some .null) →
      filterRecordU r (mkCmp (.str n) o v) = some false) ∧
    (∀ x y, JMap.get r n = some (.num x) → v = .num y →
      filterRecordU r (mkCmp (.str n) o v) = some (f x.toRat y.toRat)) := by
  rw [filterU_cmp_node]
  unfold ordFn at hop
  split at hop <;>
  first
    | exact Option.noConfusion hop
    | (injection hop with hf
       subst hf
       refine ⟨fun h => ?_, fun x y hx hy => ?_⟩
       · have hval : (JMap.get r n).getD .null = .null := by
           rcases h with h | h <;> simp [h]
         rw [hval]
         subst_vars
         rfl
       · subst_vars
         rw [hx]
         rfl)

/-- Witness for `filterU_ordering_ops`: `{"name":"baz","op":"le",
"value":5}` against `{"baz":3}` is `true`; against the empty row
(absent `baz`) it is `false`. -/
theorem filterU_ordering_ops_witness :
    filterRecordU [("baz", .num (.i 3))]
      (mkCmp (.str "baz") "le" (.num (.i 5))) = some true ∧
    filterRecordU [] (mkCmp (.str "baz") "le" (.num (.i 5))) = some false := by
  constructor
  · have h := (filterU_ordering_ops [("baz", .num (.i 3))] "baz" "le"
      (.num (.i 5)) (fun a b => decide (a ≤ b)) rfl).2 (.i 3) (.i 5) rfl rfl
    exact h.trans (by rfl)
  · exact (filterU_ordering_ops [] "baz" "le" (.num (.i 5))
      (fun a b => decide (a ≤ b)) rfl).1 (Or.inl rfl)

theorem get_mergeField_self (acc : Row) (k : String) (w : JValue) :
    JMap.get (mergeField acc (k, w)) k =
      match JMap.get acc k with
      | none => some w
      | some .null => some w
      | some v => some v := by
  unfold mergeField
  cases h : JMap.get acc k with
  | none => simp [h]
  | some u => cases u <;> simp [h]

theorem get_mergeField_ne (acc : Row) (k₁ k : String) (w : JValue)
    (h : k₁ ≠ k) :
    JMap.get (mergeField acc (k₁, w)) k = JMap.get acc k := by
  unfold mergeField
  cases JMap.get acc k₁ with
  | none => exact JMap.get_insert_ne _ _ _ _ (fun hh => h hh.symm)
  | some u =>
    cases u <;>
      first
        | exact JMap.get_insert_ne _ _ _ _ (fun hh => h hh.symm)
        | rfl

/-- Left fields whose keys differ from `k` never touch the entry. -/
theorem mergeMatched_get_not_mem (left : Row) :
    ∀ (racc : Row) (k : String), (∀ kv ∈ left, kv.1 ≠ k) →
    JMap.get (mergeMatched racc left) k = JMap.get racc k := by
  induction left with
  | nil => intro racc k _; rfl
  | cons kv rest ih =>
    intro racc k hne
    obtain ⟨k₁, w⟩ := kv
    show JMap.get (mergeMatched (mergeField racc (k₁, w)) rest) k = _
    rw [ih _ k (fun kv' h' => hne kv' (List.mem_cons_of_mem _ h')),
      get_mergeField_ne _ _ _ _ (hne (k₁, w) (List.mem_cons_self _ _))]

/-- Claim C5: merging a matched left row into an accumulator row
writes a left field only where the accumulator holds `Null` or
nothing, and leaves every non-`Null` accumulator field unchanged
(`utils.rs` 186-192).  The key-`Nodup` hypothesis is the `BTreeMap`
invariant of the left row. -/
theorem mergeMatched_frame (left : Row) :
    ∀ (racc : Row) (k : String), (left.map Prod.fst).Nodup →
    ((∀ v, JMap.get racc k = some v → v ≠ .null →
      JMap.get (mergeMatched racc left) k = some v) ∧
    ((JMap.get racc k = none ∨ JMap.get racc k = some .null) →
      JMap.get (mergeMatched racc left) k =
        match JMap.get left k with
        | some w => some w
        | none => JMap.get racc k)) := by
  induction left with
  | nil => exact fun racc k _ => ⟨fun v hv _ => hv, fun _ => rfl⟩
  | cons kv rest ih =>
    intro racc k hnd
    obtain ⟨k₁, w⟩ := kv
    rw [List.map_cons, List.nodup_cons] at hnd
    constructor
    · intro v hv hnn
      show JMap.get (mergeMatched (mergeField racc (k₁, w)) rest) k = some v
      refine (ih _ k hnd.2).1 v ?_ hnn
      by_cases hk : k₁ = k
      · subst hk
        rw [get_mergeField_self, hv]
        cases v with
        | null => exact absurd rfl hnn
        | bool b => rfl
        | num n => rfl
        | str s => rfl
        | arr xs => rfl
        | obj fs => rfl
      · rw [get_mergeField_ne _ _ _ _ hk]
        exact hv
    · intro h
      by_cases hk : k₁ = k
      · subst hk
        show JMap.get (mergeMatched (mergeField racc (k₁, w)) rest) k₁ = _
        have hins : JMap.get (mergeField racc (k₁, w)) k₁ = some w := by
          rw [get_mergeField_self]
          rcases h with h | h <;> rw [h]
        have hrest : ∀ kv' ∈ rest, kv'.1 ≠ k₁ := by
          intro kv' hkv' hkve
          have hmem : kv'.1 ∈ rest.map Prod.fst := List.mem_map_of_mem _ hkv'
          rw [hkve] at hmem
          exact hnd.1 hmem
        rw [mergeMatched_get_not_mem rest _ k₁ hrest, hins]
        show some w = match (if k₁ = k₁ then some w else JMap.get rest k₁) with
          | some w' => some w'
          | none => JMap.get racc k₁
        rw [if_pos rfl]
      · show JMap.get (mergeMatched (mergeField racc (k₁, w)) rest) k = _
        have hsame : JMap.get (mergeField racc (k₁, w)) k = JMap.get racc k :=
          get_mergeField_ne _ _ _ _ hk
        have h' : JMap.get (mergeField racc (k₁, w)) k = none ∨
            JMap.get (mergeField racc (k₁, w)) k = some .null := by
          rw [hsame]; exact h
        have step := (ih _ k hnd.2).2 h'
        rw [step, hsame]
        show (match JMap.get rest k with
          | some w' => some w'
          | none => JMap.get racc k) =
          match (if k₁ = k then some w else JMap.get rest k) with
          | some w' => some w'
          | none => JMap.get racc k
        rw [if_neg hk]

/-- Witness for `mergeMatched_frame`: the accumulator keeps its
non-`Null` `"a"` and receives the left row's `"b"` where it held
`Null`. -/
theorem mergeMatched_frame_witness :
    JMap.get (mergeMatched [("a", .str "x"), ("b", JValue.null)]
      [("a", .str "y"), ("b", .str "z")]) "a" = some (.str "x") ∧
    JMap.get (mergeMatched [("a", .str "x"), ("b", JValue.null)]
      [("a", .str "y"), ("b", .str "z")]) "b" = some (.str "z") := by
  constructor
  · exact (mergeMatched_frame [("a", .str "y"), ("b", .str "z")]
      [("a", .str "x"), ("b", JValue.null)] "a" (by decide)).1
      (.str "x") rfl (fun hh => JValue.noConfusion hh)
  · exact ((mergeMatched_frame [("a", .str "y"), ("b", .str "z")]
      [("a", .str "x"), ("b", JValue.null)] "b" (by decide)).2
      (Or.inr rfl)).trans rfl

/-- A successful `position`+`remove` pass: the matched row comes from
the table and the remainder is the table minus that one row. -/
theorem findMatch_ok (lk tok : String) :
    ∀ (lefts : Table) (row : Row) (rem : Table),
    findMatch lk tok lefts = some (some (row, rem)) →
    row ∈ lefts ∧ rem.Sublist lefts ∧ rem.length + 1 = lefts.length := by
  intro lefts
  induction lefts with
  | nil => intro row rem h; exact absurd h (by simp [findMatch])
  | cons r rest ih =>
    intro row rem h
    unfold findMatch at h
    split at h
    · cases h
    · rename_i t hm
      by_cases ht : t = tok
      · rw [if_pos ht] at h
        simp only [Option.some.injEq, Prod.mk.injEq] at h
        obtain ⟨hrow, hrem⟩ := h
        subst hrow; subst hrem
        exact ⟨List.mem_cons_self _ _, List.sublist_cons_self _ _, rfl⟩
      · rw [if_neg ht] at h
        split at h
        · cases h
        · simp at h
        · rename_i r2 rem2 hf
          simp only [Option.some.injEq, Prod.mk.injEq] at h
          obtain ⟨hrow, hrem⟩ := h
          subst hrow; subst hrem
          obtain ⟨h1, h2, h3⟩ := ih r2 rem2 hf
          refine ⟨List.mem_cons_of_mem _ h1, h2.cons₂ _, ?_⟩
          simpa using h3

/-- One accumulator pass of `outer_join`: the accumulator keeps its
row count, and at most one left row is consumed per accumulator
row. -/
theorem mergeRights_ok (lk rk : String) (lkeys : List String) :
    ∀ (rights lefts rs' lrem : Table),
    mergeRights lk rk lkeys lefts rights = some (rs', lrem) →
    rs'.length = rights.length ∧ lrem.Sublist lefts ∧
      lefts.length ≤ lrem.length + rights.length := by
  intro rights
  induction rights with
  | nil =>
    intro lefts rs' lrem h
    simp only [mergeRights, Option.some.injEq, Prod.mk.injEq] at h
    obtain ⟨h1, h2⟩ := h
    subst h1; subst h2
    exact ⟨rfl, List.Sublist.refl _, by omega⟩
  | cons r rs ih =>
    intro lefts rs' lrem h
    unfold mergeRights at h
    split at h
    · cases h
    · rename_i tok hm
      split at h
      · cases h
      · rename_i hf
        split at h
        · cases h
        · rename_i rs2 lrem2 hmr
          simp only [Option.some.injEq, Prod.mk.injEq] at h
          obtain ⟨h1, h2⟩ := h
          subst h1; subst h2
          obtain ⟨e1, e2, e3⟩ := ih lefts rs2 lrem2 hmr
          exact ⟨by simp [e1], e2, by simp; omega⟩
      · rename_i lrow lrem1 hf
        split at h
        · cases h
        · rename_i rs2 lrem2 hmr
          simp only [Option.some.injEq, Prod.mk.injEq] at h
          obtain ⟨h1, h2⟩ := h
          subst h1; subst h2
          obtain ⟨f1, f2, f3⟩ := findMatch_ok lk tok lefts lrow lrem1 hf
          obtain ⟨e1, e2, e3⟩ := ih lrem1 rs2 lrem2 hmr
          exact ⟨by simp [e1], e2.trans f2, by simp; omega⟩

/-- One `while` iteration of `outer_join` never loses rows: the
result holds at least as many rows as the accumulator and at least as
many as the left table. -/
theorem joinStep_ok (left : Table) (lk : String) (right : Table)
    (rk : String) (res : Table) (h : joinStep left lk right rk = some res) :
    right.length ≤ res.length ∧ left.length ≤ res.length := by
  cases left with
  | nil => simp [joinStep] at h
  | cons lrow ltail =>
    cases right with
    | nil => simp [joinStep] at h
    | cons rrow rtail =>
      simp only [joinStep] at h
      split at h
      · cases h
      · rename_i rs' lrem hmr
        simp only [Option.some.injEq] at h
        subst h
        obtain ⟨e1, _, e3⟩ := mergeRights_ok lk rk _ _ _ _ _ hmr
        simp only [List.length_append, List.length_map]
        omega

/-- The fold of `joinStep` over the remaining tables: the final
result dominates the accumulator and every remaining table. -/
theorem joinLoop_ok (rk : String) :
    ∀ (pairs : List (Table × String)) (acc res : Table),
    joinLoop rk pairs acc = some res →
    acc.length ≤ res.length ∧ ∀ p ∈ pairs, p.1.length ≤ res.length := by
  intro pairs
  induction pairs with
  | nil =>
    intro acc res h
    simp only [joinLoop, Option.some.injEq] at h
    subst h
    exact ⟨le_refl _, fun p hp => absurd hp (List.not_mem_nil _)⟩
  | cons p rest ih =>
    intro acc res h
    obtain ⟨l, lk⟩ := p
    unfold joinLoop at h
    split at h
    · cases h
    · rename_i acc' hs
      obtain ⟨ha, hb⟩ := ih acc' res h
      obtain ⟨h1, h2⟩ := joinStep_ok l lk acc rk acc' hs
      refine ⟨le_trans h1 ha, ?_⟩
      intro q hq
      rcases List.mem_cons.mp hq with rfl | hm
      · exact le_trans h2 ha
      · exact hb q hm

theorem mem_zip_of_mem_left {α β : Type} :
    ∀ (xs : List α) (ys : List β), xs.length = ys.length →
    ∀ x ∈ xs, ∃ y, (x, y) ∈ xs.zip ys := by
  intro xs
  induction xs with
  | nil => intro ys _ x hx; cases hx
  | cons a as ih =>
    intro ys hlen x hx
    cases ys with
    | nil => simp at hlen
    | cons b bs =>
      rcases List.mem_cons.mp hx with rfl | hm
      · exact ⟨b, List.mem_cons_self _ _⟩
      · obtain ⟨y, hy⟩ := ih bs (by simpa using hlen) x hm
        exact ⟨y, List.mem_cons_of_mem _ hy⟩

/-- Claim C4: on a successful join of non-empty tables with an
equal-length key list, the result has at least as many rows as every
input table. -/
theorem outer_join_row_count (tables : List Table) (keys : List String)
    (res : Table) (hne : tables ≠ []) (hnonempty : ∀ t ∈ tables, t ≠ [])
    (hlen : tables.length = keys.length)
    (hok : outer_join tables keys = .ok res) :
    ∀ t ∈ tables, t.length ≤ res.length := by
  intro t ht
  unfold outer_join at hok
  rw [if_neg (by simpa [List.isEmpty_iff] using hne),
    if_neg (by simp [hlen])] at hok
  cases hrt : tables.reverse with
  | nil => exact absurd (by simpa using hrt) hne
  | cons rt restT =>
    cases hrk : keys.reverse with
    | nil =>
      have hk0 : keys = [] := by simpa using hrk
      rw [hk0] at hlen
      exact absurd (List.length_eq_zero.mp hlen) hne
    | cons rk restK =>
      rw [hrt, hrk] at hok
      split at hok
      · rename_i rt1 restT1 rk1 restK1 heqT heqK
        injection heqT with eT1 eT2
        injection heqK with eK1 eK2
        subst eT1; subst eT2; subst eK1; subst eK2
        split at hok
        · cases hok
        · rename_i out hjl
          injection hok with hres
          subst hres
          obtain ⟨hacc, hall⟩ := joinLoop_ok rk (restT.zip restK) rt out hjl
          have ht' : t ∈ rt :: restT := by rw [← hrt]; exact List.mem_reverse.mpr ht
          rcases List.mem_cons.mp ht' with rfl | hm
          · exact hacc
          · have hlenTK : restT.length = restK.length := by
              have e1 := congrArg List.length hrt
              have e2 := congrArg List.length hrk
              simp at e1 e2
              omega
            obtain ⟨k, hk⟩ := mem_zip_of_mem_left restT restK hlenTK t hm
            exact hall (t, k) hk
      · rename_i himp
        exact (himp rt restT rk restK rfl rfl).elim

/-- Witness for `outer_join_row_count`: the two-table overlap example
(first input table, result has three rows). -/
theorem outer_join_row_count_witness :
    ([[("key1", JValue.str "value1"), ("key2", JValue.str "value2")],
      [("key1", JValue.str "value3"), ("key2", JValue.str "value4")]] :
        Table).length ≤
    ([[("key1", .str "value1"), ("key2", .str "value2"), ("key3", .str "value6")],
      [("key1", .str "value7"), ("key2", .null), ("key3", .str "value8")],
      [("key1", .str "value3"), ("key2", .str "value4"), ("key3", .null)]] :
        Table).length := by
  refine outer_join_row_count
    [[[("key1", .str "value1"), ("key2", .str "value2")],
      [("key1", .str "value3"), ("key2", .str "value4")]],
     [[("key1", .str "value1"), ("key3", .str "value6")],
      [("key1", .str "value7"), ("key3", .str "value8")]]]
    ["key1", "key1"] _ (List.cons_ne_nil _ _) ?_ rfl rfl _ (List.mem_cons_self _ _)
  intro t ht
  rcases List.mem_cons.mp ht with rfl | ht2
  · exact List.cons_ne_nil _ _
  · rcases List.mem_cons.mp ht2 with rfl | ht3
    · exact List.cons_ne_nil _ _
    · cases ht3

/-- The per-row precondition C10 names: the value stored at the
join-key path is `Null`, absent, or a `String`. -/
def joinKeyOk (key : String) (row : Row) : Bool :=
  match JMap.get row key with
  | none => true
  | some .null => true
  | some (.str _) => true
  | some _ => false

/-- A row satisfying `joinKeyOk` always yields a match token
(`as_str().unwrap()` cannot fire). -/
theorem matchToken_ok_of_keyOk (key : String) (row : Row)
    (h : joinKeyOk key row = true) : ∃ t, matchToken row key = some t := by
  unfold joinKeyOk at h
  cases hg : JMap.get row key with
  | none => exact ⟨preDot "__MISSING__", by simp [matchToken, hg]⟩
  | some u =>
    rw [hg] at h
    cases u with
    | null => exact ⟨preDot "__MISSING__", by simp [matchToken, hg]⟩
    | str s => exact ⟨preDot s, by simp [matchToken, hg]⟩
    | bool b => cases h
    | num n => cases h
    | arr xs => cases h
    | obj fs => cases h

/-- When every left row satisfies its key precondition, the position
search cannot panic. -/
theorem findMatch_total (lk tok : String) :
    ∀ (lefts : Table), (∀ l ∈ lefts, joinKeyOk lk l = true) →
    ∃ o, findMatch lk tok lefts = some o := by
  intro lefts
  induction lefts with
  | nil => exact fun _ => ⟨none, rfl⟩
  | cons r rest ih =>
    intro hall
    obtain ⟨t, ht⟩ := matchToken_ok_of_keyOk lk r (hall r (List.mem_cons_self _ _))
    obtain ⟨o, ho⟩ := ih (fun l hl => hall l (List.mem_cons_of_mem _ hl))
    by_cases he : t = tok
    · exact ⟨some (r, rest), by simp [findMatch, ht, he]⟩
    · cases o with
      | none => exact ⟨none, by simp [findMatch, ht, he, ho]⟩
      | some p => exact ⟨some (p.1, r :: p.2), by simp [findMatch, ht, he, ho]⟩

/-- When every accumulator row satisfies the accumulator-key
precondition and every left row its own, the merge pass succeeds. -/
theorem mergeRights_total (lk rk : String) (lkeys : List String) :
    ∀ (rights lefts : Table),
    (∀ r ∈ rights, joinKeyOk rk r = true) →
    (∀ l ∈ lefts, joinKeyOk lk l = true) →
    ∃ out, mergeRights lk rk lkeys lefts rights = some out := by
  intro rights
  induction rights with
  | nil => exact fun lefts _ _ => ⟨([], lefts), rfl⟩
  | cons r rs ih =>
    intro lefts hr hl
    obtain ⟨tok, htok⟩ :=
      matchToken_ok_of_keyOk rk r (hr r (List.mem_cons_self _ _))
    obtain ⟨o, ho⟩ := findMatch_total lk tok lefts hl
    cases o with
    | none =>
      obtain ⟨out, hout⟩ :=
        ih lefts (fun x hx => hr x (List.mem_cons_of_mem _ hx)) hl
      exact ⟨(fillNulls lkeys r :: out.1, out.2),
        by simp [mergeRights, htok, ho, hout]⟩
    | some p =>
      obtain ⟨lrow, lrem⟩ := p
      have hsub := (findMatch_ok lk tok lefts lrow lrem ho).2.1
      have hl' : ∀ l ∈ lrem, joinKeyOk lk l = true :=
        fun l hl2 => hl l (hsub.subset hl2)
      obtain ⟨out, hout⟩ :=
        ih lrem (fun x hx => hr x (List.mem_cons_of_mem _ hx)) hl'
      exact ⟨(mergeMatched r lrow :: out.1, out.2),
        by simp [mergeRights, htok, ho, hout]⟩

/-- Claim C10, amended: with exactly two non-empty tables whose rows
hold `Null` or a `String` at their own table's join-key path,
`outer_join` cannot panic; outside the precondition it panics instead
of returning an error (an empty table makes the `[0]` index fail, a
`Number` at a join-key path makes `as_str().unwrap()` fail).  With
three or more tables the per-table precondition is no longer
sufficient — see `outer_join_three_tables_keyok_crash`. -/
theorem outer_join_two_tables_no_crash :
    (∀ (t1 t2 : Table) (k1 k2 : String),
      t1 ≠ [] → t2 ≠ [] →
      (∀ r ∈ t1, joinKeyOk k1 r = true) →
      (∀ r ∈ t2, joinKeyOk k2 r = true) →
      ∃ res, outer_join [t1, t2] [k1, k2] = .ok res) ∧
    outer_join [[[("a", JValue.str "x")]], []] ["a", "a"] = .error .crash ∧
    outer_join [[[("a", JValue.str "x")]], [[("a", JValue.num (.i 5))]]]
      ["a", "a"] = .error .crash := by
  refine ⟨?_, rfl, rfl⟩
  intro t1 t2 k1 k2 h1 h2 hk1 hk2
  obtain ⟨r1, t1tail, rfl⟩ := List.exists_cons_of_ne_nil h1
  obtain ⟨r2, t2tail, rfl⟩ := List.exists_cons_of_ne_nil h2
  obtain ⟨out, hmr⟩ := mergeRights_total k1 k2 (r1.map Prod.fst)
    (r2 :: t2tail) (r1 :: t1tail) hk2 hk1
  obtain ⟨rs', lrem⟩ := out
  have hstep : joinStep (r1 :: t1tail) k1 (r2 :: t2tail) k2 =
      some (rs' ++ lrem.map (fillNulls (r2.map Prod.fst))) := by
    simp only [joinStep, hmr]
  refine ⟨rs' ++ lrem.map (fillNulls (r2.map Prod.fst)), ?_⟩
  have hshape : outer_join [r1 :: t1tail, r2 :: t2tail] [k1, k2] =
      match joinLoop k2 [(r1 :: t1tail, k1)] (r2 :: t2tail) with
      | none => .error .crash
      | some t => .ok t := rfl
  rw [hshape]
  have hloop : joinLoop k2 [(r1 :: t1tail, k1)] (r2 :: t2tail) =
      some (rs' ++ lrem.map (fillNulls (r2.map Prod.fst))) := by
    simp only [joinLoop, hstep]
  rw [hloop]

/-- Witness for `outer_join_two_tables_no_crash`: two singleton
tables with string join values. -/
theorem outer_join_two_tables_no_crash_witness :
    ∃ res, outer_join [[[("a", JValue.str "p")]], [[("a", JValue.str "p")]]]
      ["a", "a"] = .ok res :=
  outer_join_two_tables_no_crash.1
    [[("a", JValue.str "p")]] [[("a", JValue.str "p")]] "a" "a"
    (List.cons_ne_nil _ _) (List.cons_ne_nil _ _)
    (by intro r hr; rcases List.mem_cons.mp hr with rfl | h
        · rfl
        · cases h)
    (by intro r hr; rcases List.mem_cons.mp hr with rfl | h
        · rfl
        · cases h)

/-- Claim C10, counterexample: three tables, each non-empty, every
row holding a `String` at its own table's join-key path — the claimed
precondition — yet `outer_join` panics: the unmatched second-table
row `{k2:"zz", k3:5}` is appended to the accumulator, and the next
iteration reads its non-string `k3` with `as_str().unwrap()`. -/
theorem outer_join_three_tables_keyok_crash :
    joinKeyOk "k1" [("k1", JValue.str "a")] = true ∧
    joinKeyOk "k2" [("k2", JValue.str "zz"), ("k3", JValue.num (.i 5))] = true ∧
    joinKeyOk "k3" [("k3", JValue.str "a")] = true ∧
    outer_join
      [[[("k1", JValue.str "a")]],
       [[("k2", JValue.str "zz"), ("k3", JValue.num (.i 5))]],
       [[("k3", JValue.str "a")]]]
      ["k1", "k2", "k3"] = .error .crash :=
  ⟨rfl, rfl, rfl, rfl⟩

/-- `true` when a value is not an `Array` (the shape on which the two
evaluators' `eq`/`ne` handling differs). -/
def notArr : JValue → Bool
  | .arr _ => false
  | _ => true

/-- The common fragment on which the two filter evaluators agree:
`Null`, non-object scalars, uppercase `AND`/`OR` over agreeing
sub-filters, word-form `eq`/`ne` on a non-`Array` row value, and
word-form ordering operators on numeric row and node values. -/
inductive Agreeable (r : Row) : JValue → Prop where
  | nullF : Agreeable r .null
  | boolF (b : Bool) : Agreeable r (.bool b)
  | numF (n : JNum) : Agreeable r (.num n)
  | strF (s : String) : Agreeable r (.str s)
  | arrF (xs : List JValue) : Agreeable r (.arr xs)
  | andF (children : List JValue) :
      (∀ c ∈ children, Agreeable r c) →
      Agreeable r (.obj [("AND", .arr children)])
  | orF (children : List JValue) :
      (∀ c ∈ children, Agreeable r c) →
      Agreeable r (.obj [("OR", .arr children)])
  | cmpEq (n op : String) (w : JValue) :
      op = "eq" ∨ op = "ne" →
      notArr ((JMap.get r n).getD .null) = true →
      Agreeable r (.obj [("name", .str n), ("op", .str op), ("value", w)])
  | cmpOrd (n op : String) (x y : JNum) :
      op = "gt" ∨ op = "ge" ∨ op = "lt" ∨ op = "le" →
      JMap.get r n = some (.num x) →
      Agreeable r (.obj [("name", .str n), ("op", .str op),
        ("value", .num y)])

theorem filterAll_congr (r : Row) : ∀ (l : List JValue),
    (∀ c ∈ l, filterRecordL r c = filterRecordU r c) →
    filterAllL r l = filterAllU r l := by
  intro l
  induction l with
  | nil => intro _; rfl
  | cons c cs ih =>
    intro h
    show (do
      let b ← filterRecordL r c
      if b then filterAllL r cs else some false) = (do
      let b ← filterRecordU r c
      if b then filterAllU r cs else some false)
    rw [h c (List.mem_cons_self _ _),
      ih (fun x hx => h x (List.mem_cons_of_mem _ hx))]

theorem filterAny_congr (r : Row) : ∀ (l : List JValue),
    (∀ c ∈ l, filterRecordL r c = filterRecordU r c) →
    filterAnyL r l = filterAnyU r l := by
  intro l
  induction l with
  | nil => intro _; rfl
  | cons c cs ih =>
    intro h
    show (do
      let b ← filterRecordL r c
      if b then some true else filterAnyL r cs) = (do
      let b ← filterRecordU r c
      if b then some true else filterAnyU r cs)
    rw [h c (List.mem_cons_self _ _),
      ih (fun x hx => h x (List.mem_cons_of_mem _ hx))]

/-- Claim C8, amended: on the `Agreeable` fragment the two evaluators
coincide. -/
theorem filter_equiv_on_agreeable (r : Row) (fl : JValue)
    (h : Agreeable r fl) : filterRecordL r fl = filterRecordU r fl := by
  induction h with
  | nullF => rfl
  | boolF b => rfl
  | numF n => rfl
  | strF s => rfl
  | arrF xs => rfl
  | andF children hc ih => exact filterAll_congr r children ih
  | orF children hc ih => exact filterAny_congr r children ih
  | cmpEq n op w hop hna =>
    show lCompare op ((JMap.get r n).getD .null) w =
      uCompare op ((JMap.get r n).getD .null) w
    rcases hop with rfl | rfl <;>
    · cases hv : (JMap.get r n).getD .null <;>
        first
          | rfl
          | (rw [hv] at hna; cases hna)
  | cmpOrd n op x y hop hget =>
    show lCompare op ((JMap.get r n).getD .null) (.num y) =
      uCompare op ((JMap.get r n).getD .null) (.num y)
    rw [hget]
    rcases hop with rfl | rfl | rfl | rfl <;> rfl

/-- Witness for `filter_equiv_on_agreeable`: an `AND` of one ordering
comparison over a numeric row value. -/
theorem filter_equiv_on_agreeable_witness :
    filterRecordL [("baz", JValue.num (.i 3))]
      (.obj [("AND", .arr [mkCmp (.str "baz") "le" (.num (.i 5))])]) =
    filterRecordU [("baz", JValue.num (.i 3))]
      (.obj [("AND", .arr [mkCmp (.str "baz") "le" (.num (.i 5))])]) :=
  filter_equiv_on_agreeable _ _ (Agreeable.andF _ (by
    intro c hc
    rcases List.mem_cons.mp hc with rfl | hn
    · exact Agreeable.cmpOrd "baz" "le" (.i 3) (.i 5)
        (Or.inr (Or.inr (Or.inr rfl))) rfl
    · cases hn))

/-- Claim C8, counterexample: on the row `{}` and the filter
`{"name":"b","op":"le","value":5}` the `lib.rs` evaluator returns
`true` (it compares `Null` as `0.`) while the `utils.rs` evaluator
returns `false` (`Null` never satisfies an ordering operator). -/
theorem filters_not_equivalent :
    filterRecordL [] (mkCmp (.str "b") "le" (.num (.i 5))) = some true ∧
    filterRecordU [] (mkCmp (.str "b") "le" (.num (.i 5))) = some false :=
  ⟨rfl, rfl⟩

/-! ## Claim C9: the boolean-literal production -/

mutual
/-- `true` when the value contains `Bool(false)` anywhere. -/
def hasBoolFalse (v : JValue) : Bool :=
  match v with
  | .bool b => !b
  | .arr xs => hasBoolFalseList xs
  | .obj fs => hasBoolFalseFields fs
  | _ => false
termination_by structural v

def hasBoolFalseList (l : List JValue) : Bool :=
  match l with
  | [] => false
  | x :: xs => hasBoolFalse x || hasBoolFalseList xs
termination_by structural l

def hasBoolFalseFields (l : List (String × JValue)) : Bool :=
  match l with
  | [] => false
  | kv :: fs => hasBoolFalse kv.2 || hasBoolFalseFields fs
termination_by structural l
end

@[simp] theorem hasBoolFalse_null : hasBoolFalse .null = false := rfl

@[simp] theorem hasBoolFalse_bool (b : Bool) :
    hasBoolFalse (.bool b) = !b := rfl

@[simp] theorem hasBoolFalse_num (n : JNum) :
    hasBoolFalse (.num n) = false := rfl

@[simp] theorem hasBoolFalse_str (s : String) :
    hasBoolFalse (.str s) = false := rfl

@[simp] theorem hasBoolFalse_arr (xs : List JValue) :
    hasBoolFalse (.arr xs) = hasBoolFalseList xs := rfl

@[simp] theorem hasBoolFalse_obj (fs : List (String × JValue)) :
    hasBoolFalse (.obj fs) = hasBoolFalseFields fs := rfl

@[simp] theorem hasBoolFalseList_nil : hasBoolFalseList [] = false := rfl

@[simp] theorem hasBoolFalseList_cons (x : JValue) (xs : List JValue) :
    hasBoolFalseList (x :: xs) = (hasBoolFalse x || hasBoolFalseList xs) := rfl

@[simp] theorem hasBoolFalseFields_nil : hasBoolFalseFields [] = false := rfl

@[simp] theorem hasBoolFalseFields_cons (kv : String × JValue)
    (fs : List (String × JValue)) :
    hasBoolFalseFields (kv :: fs) =
      (hasBoolFalse kv.2 || hasBoolFalseFields fs) := rfl

/-- The boolean-literal production returns `Bool(true)` whichever
spelling matched. -/
theorem pBoolLit_true (cs : List Char) (v : JValue) (r : List Char)
    (h : pBoolLit cs = some (v, r)) : v = .bool true := by
  unfold pBoolLit at h
  split at h
  · injection h with h1
    cases h1
    rfl
  · split at h
    · injection h with h1
      cases h1
      rfl
    · cases h

/-- Every value the `value()` alternatives can produce is free of
`Bool(false)`. -/
theorem pValueCore_noBF (cs : List Char) (v : JValue) (rest : List Char)
    (h : pValueCore cs = some (v, rest)) : hasBoolFalse v = false := by
  unfold pValueCore at h
  split at h
  · injection h with h1
    cases h1
    rfl
  · split at h
    · injection h with h1
      cases h1
      rfl
    · split at h
      · injection h with h1
        cases h1
        rfl
      · split at h
        · rename_i p hb
          obtain ⟨pv, pr⟩ := p
          have hv := pBoolLit_true _ _ _ hb
          injection h with h1
          cases h1
          rw [hv]
          rfl
        · split at h
          · injection h with h1
            cases h1
            rfl
          · split at h
            · injection h with h1
              cases h1
              rfl
            · cases h

/-- `pValue` only wraps `pValueCore` with whitespace handling. -/
theorem pValue_noBF (cs : List Char) (v : JValue) (rest : List Char)
    (h : pValue cs = some (v, rest)) : hasBoolFalse v = false := by
  unfold pValue at h
  split at h <;>
    first
      | (injection h with h1
         cases h1
         rename_i hcore
         exact pValueCore_noBF _ _ _ hcore)
      | cases h

theorem hasBoolFalseList_eq_false (vs : List JValue)
    (h : ∀ x ∈ vs, hasBoolFalse x = false) : hasBoolFalseList vs = false := by
  induction vs with
  | nil => rfl
  | cons y ys ih =>
    simp only [hasBoolFalseList_cons, Bool.or_eq_false_iff]
    exact ⟨h y (List.mem_cons_self _ _),
      ih (fun z hz => h z (List.mem_cons_of_mem _ hz))⟩

theorem pValueListAux_noBF : ∀ (fuel : Nat) (cs : List Char)
    (acc vs : List JValue) (rest : List Char),
    pValueListAux fuel cs acc = (vs, rest) →
    (∀ x ∈ acc, hasBoolFalse x = false) →
    ∀ x ∈ vs, hasBoolFalse x = false := by
  intro fuel
  induction fuel with
  | zero =>
    intro cs acc vs rest h hacc x hx
    injection h with h1 h2
    subst h1
    exact hacc x (List.mem_reverse.mp hx)
  | succ fuel ih =>
    intro cs acc vs rest h hacc x hx
    unfold pValueListAux at h
    split at h
    · injection h with h1 h2
      subst h1
      exact hacc x (List.mem_reverse.mp hx)
    · rename_i pv pr hv
      refine ih _ _ _ _ h ?_ x hx
      intro y hy
      rcases List.mem_cons.mp hy with rfl | hy2
      · exact pValue_noBF _ _ _ hv
      · exact hacc y hy2

theorem pValueList_noBF (cs : List Char) (vs : List JValue)
    (rest : List Char) (h : pValueList cs = (vs, rest)) :
    ∀ x ∈ vs, hasBoolFalse x = false := by
  unfold pValueList at h
  split at h
  all_goals
    first
      | (injection h with h1 h2
         subst h1
         intro x hx
         cases hx)
      | (rename_i hv
         refine pValueListAux_noBF _ _ _ _ _ h ?_
         intro y hy
         rcases List.mem_cons.mp hy with rfl | hy2
         · exact pValue_noBF _ _ _ hv
         · cases hy2)

theorem pGroupVal_noBF (cs : List Char) (v : JValue) (rest : List Char)
    (h : pGroupVal cs = some (v, rest)) : hasBoolFalse v = false := by
  unfold pGroupVal at h
  split at h
  · split at h
    · rename_i lvs lrest hl
      split at h
      · injection h with h1
        cases h1
        simp only [hasBoolFalse_arr]
        exact hasBoolFalseList_eq_false _ (pValueList_noBF _ _ _ hl)
      · cases h
  · cases h

theorem pPropertyVal_noBF (cs : List Char) (v : JValue) (rest : List Char)
    (h : pPropertyVal cs = some (v, rest)) : hasBoolFalse v = false := by
  unfold pPropertyVal at h
  split at h
  · rename_i hg
    injection h with h1
    cases h1
    exact pGroupVal_noBF _ _ _ hg
  · split at h
    · rename_i hv
      injection h with h1
      cases h1
      exact pValue_noBF _ _ _ hv
    · cases h

theorem pCmpCondition_noBF (cs : List Char) (v : JValue) (rest : List Char)
    (h : pCmpCondition cs = some (v, rest)) : hasBoolFalse v = false := by
  unfold pCmpCondition at h
  split at h
  · cases h
  · rename_i hl
    split at h
    · cases h
    · rename_i hop
      split at h
      · cases h
      · rename_i hr
        injection h with h1
        cases h1
        show hasBoolFalse (mkCmp _ _ _) = false
        unfold mkCmp
        simp only [hasBoolFalse_obj, hasBoolFalseFields_cons,
          hasBoolFalseFields_nil, hasBoolFalse_str, Bool.or_false,
          Bool.or_eq_false_iff]
        exact ⟨pPropertyVal_noBF _ _ _ hl, trivial,
          pPropertyVal_noBF _ _ _ hr⟩

theorem andor_noBF (key : String) (a b : JValue)
    (ha : hasBoolFalse a = false) (hb : hasBoolFalse b = false) :
    hasBoolFalse (.obj [(key, .arr [a, b])]) = false := by
  simp [ha, hb]

/-- No parse tree the grammar can produce contains `Bool(false)`. -/
theorem grammar_noBF (fuel : Nat) :
    (∀ cs v rest, boolCondition fuel cs = some (v, rest) →
      hasBoolFalse v = false) ∧
    (∀ cs v rest, andExpression fuel cs = some (v, rest) →
      hasBoolFalse v = false) ∧
    (∀ cs v rest, orExpression fuel cs = some (v, rest) →
      hasBoolFalse v = false) ∧
    (∀ cs v rest, boolExpression fuel cs = some (v, rest) →
      hasBoolFalse v = false) := by
  induction fuel with
  | zero =>
    refine ⟨?_, ?_, ?_, ?_⟩ <;> (intro cs v rest h; cases h)
  | succ fuel ih =>
    obtain ⟨ihc, iha, iho, ihb⟩ := ih
    have hcond : ∀ cs v rest, boolCondition (fuel + 1) cs = some (v, rest) →
        hasBoolFalse v = false := by
      intro cs v rest h
      simp only [boolCondition] at h
      split at h
      · rename_i hcmp
        injection h with h1
        cases h1
        exact pCmpCondition_noBF _ _ _ hcmp
      · split at h
        · split at h
          · cases h
          · rename_i hbe
            split at h
            · injection h with h1
              cases h1
              exact ihb _ _ _ hbe
            · cases h
        · cases h
    refine ⟨hcond, ?_, ?_, ?_⟩
    · intro cs v rest h
      simp only [andExpression] at h
      split at h
      · rename_i r hboth
        injection h with h1
        cases h1
        split at hboth
        · cases hboth
        · rename_i hc1
          split at hboth
          · cases hboth
          · split at hboth
            · cases hboth
            · rename_i hc2
              injection hboth with h2
              cases h2
              exact andor_noBF _ _ _ (ihc _ _ _ hc1) (ihc _ _ _ hc2)
      · exact ihc _ _ _ h
    · intro cs v rest h
      simp only [orExpression] at h
      split at h
      · rename_i r hboth
        injection h with h1
        cases h1
        split at hboth
        · cases hboth
        · rename_i hc1
          split at hboth
          · cases hboth
          · split at hboth
            · cases hboth
            · rename_i hc2
              injection hboth with h2
              cases h2
              exact andor_noBF _ _ _ (iha _ _ _ hc1) (iha _ _ _ hc2)
      · exact iha _ _ _ h
    · intro cs v rest h
      simp only [boolExpression] at h
      split at h
      · rename_i r hboth
        injection h with h1
        cases h1
        split at hboth
        · cases hboth
        · rename_i hc1
          split at hboth
          · cases hboth
          · split at hboth
            · cases hboth
            · rename_i hc2
              injection hboth with h2
              cases h2
              exact andor_noBF _ _ _ (ihc _ _ _ hc1) (ihb _ _ _ hc2)
      · exact ihc _ _ _ h

/-- Claim C9: the boolean-literal production never yields
`Bool(false)` — the bare literal `false` in any letter casing parses
to `Bool(true)`, exactly as `true` does, and consequently no value in
any successfully parsed expression contains `Bool(false)`. -/
theorem parse_never_bool_false :
    (∀ (c1 c2 c3 c4 c5 : Char),
      (c1 = 'f' ∨ c1 = 'F') → (c2 = 'a' ∨ c2 = 'A') →
      (c3 = 'l' ∨ c3 = 'L') → (c4 = 's' ∨ c4 = 'S') →
      (c5 = 'e' ∨ c5 = 'E') →
      pValue [c1, c2, c3, c4, c5] = some (.bool true, [])) ∧
    (∀ (c1 c2 c3 c4 : Char),
      (c1 = 't' ∨ c1 = 'T') → (c2 = 'r' ∨ c2 = 'R') →
      (c3 = 'u' ∨ c3 = 'U') → (c4 = 'e' ∨ c4 = 'E') →
      pValue [c1, c2, c3, c4] = some (.bool true, [])) ∧
    (∀ (input : String) (v : JValue),
      parse_logic_expr input = some v → hasBoolFalse v = false) := by
  refine ⟨?_, ?_, ?_⟩
  · intro c1 c2 c3 c4 c5 h1 h2 h3 h4 h5
    rcases h1 with rfl | rfl <;> rcases h2 with rfl | rfl <;>
      rcases h3 with rfl | rfl <;> rcases h4 with rfl | rfl <;>
      rcases h5 with rfl | rfl <;> rfl
  · intro c1 c2 c3 c4 h1 h2 h3 h4
    rcases h1 with rfl | rfl <;> rcases h2 with rfl | rfl <;>
      rcases h3 with rfl | rfl <;> rcases h4 with rfl | rfl <;> rfl
  · intro input v h
    unfold parse_logic_expr at h
    dsimp only at h
    split at h
    · rename_i hor
      split at h
      · injection h with h1
        cases h1
        exact (grammar_noBF _).2.2.1 _ _ _ hor
      · cases h
    · cases h

/-- Witness for `parse_never_bool_false`: mixed-case spellings of the
two literals, and the tree parsed from `"a == false"` (whose value is
`Bool(true)`). -/
theorem parse_never_bool_false_witness :
    pValue ['F', 'a', 'L', 's', 'E'] = some (.bool true, []) ∧
    pValue ['t', 'R', 'u', 'E'] = some (.bool true, []) ∧
    hasBoolFalse (.obj [("name", .str "a"), ("op", .str "=="),
      ("value", .bool true)]) = false :=
  ⟨parse_never_bool_false.1 'F' 'a' 'L' 's' 'E' (Or.inr rfl) (Or.inl rfl)
      (Or.inr rfl) (Or.inl rfl) (Or.inr rfl),
   parse_never_bool_false.2.1 't' 'R' 'u' 'E' (Or.inl rfl) (Or.inr rfl)
      (Or.inl rfl) (Or.inr rfl),
   parse_never_bool_false.2.2 "a == false"
      (.obj [("name", .str "a"), ("op", .str "=="), ("value", .bool true)])
      rfl⟩

end VcfSpec
